import Mathlib

/-!
Shallow embedding of the lambdawasm expression-workspace controller
(src/reactfront/src/App.js) and proofs about its specified behaviour.

The React component state is modelled as an explicit record `App.AppState`;
each event handler of the component becomes a pure state-transformer.  The
JavaScript string/regex/object primitives that the handlers rely on are
modelled at the level of `List Char`:

* `String.prototype.replace` with the regex built as
  `new RegExp("\\b" + name + "\\b", "g")` is modelled by `scanReplace`
  (left-to-right, non-overlapping scan; `\b` is the word-boundary assertion
  over the word characters `[A-Za-z0-9_]`), including the `$`-substitution
  patterns of replacement strings (`getSubstitution`);
* `String.prototype.trim` becomes `jsTrim`;
* plain-object property order (array-index keys in ascending numeric order
  first, then the remaining keys in insertion order, as enumerated by
  `Object.entries` and object spread) becomes `jsEntries`, and the spread
  upsert `{...obj, [name]: value}` becomes `jsUpsert`.

The WASM reduction oracle `next_beta_reduction_wasm` is external to the
repository and is passed in as a function parameter `oracle`, which may
fail (`Except.error`) to model a thrown JavaScript exception.
-/

namespace App

/-- Word character of the JavaScript regex classes `\w` / `\b`:
`[A-Za-z0-9_]` (non-unicode mode). -/
def isWordChar (c : Char) : Bool :=
  decide (('a' ≤ c ∧ c ≤ 'z') ∨ ('A' ≤ c ∧ c ≤ 'Z') ∨ ('0' ≤ c ∧ c ≤ '9') ∨ c = '_')

/-- Word-character test on an optional character; the edge of the string
(`none`) counts as a non-word position. -/
def wordOpt : Option Char → Bool
  | none => false
  | some c => isWordChar c

/-- Dollar character, the escape character of JavaScript replacement
patterns. -/
def dollarChar : Char := '$'

/-- Backquote character (used by the replacement pattern for the text
before the match). -/
def backquoteChar : Char := Char.ofNat 96

/-- Single-quote character (used by the replacement pattern for the text
after the match). -/
def quoteChar : Char := Char.ofNat 39

/-- GetSubstitution of the ECMAScript specification, for a regex without
capture groups: expands `$$`, `$&` (the match), the backquote pattern
(text before the match) and the quote pattern (text after the match)
inside a replacement string; any other use of `$` is literal. -/
def getSubstitution (matched before after : List Char) : List Char → List Char
  | [] => []
  | [c] => [c]
  | c :: d :: rest2 =>
    if c = dollarChar then
      if d = dollarChar then dollarChar :: getSubstitution matched before after rest2
      else if d = '&' then matched ++ getSubstitution matched before after rest2
      else if d = backquoteChar then before ++ getSubstitution matched before after rest2
      else if d = quoteChar then after ++ getSubstitution matched before after rest2
      else c :: d :: getSubstitution matched before after rest2
    else c :: getSubstitution matched before after (d :: rest2)

/-- The regex `\b<name>\b` (for a literal `name`) matches `orig` at
position `i`: the characters of `name` occur at `i`, and both ends sit at
a word boundary (word-ness differs across the boundary; the string edge is
non-word). -/
def matchAt (orig : List Char) (i : Nat) (name : List Char) : Prop :=
  (orig.drop i).take name.length = name
  ∧ wordOpt (if i = 0 then none else orig[i - 1]?) ≠ wordOpt name[0]?
  ∧ wordOpt name[name.length - 1]? ≠ wordOpt orig[i + name.length]?

instance (orig : List Char) (i : Nat) (name : List Char) : Decidable (matchAt orig i name) := by
  unfold matchAt
  exact inferInstance

/-- Left-to-right, non-overlapping global replace of `\b<name>\b` by the
replacement string `body` (with `$`-pattern expansion), as performed by
`result.replace(regex, value)` in `replaceNamedExpressions`.  `i` is the
current scan position inside `orig` and the list argument is `orig.drop i`;
the fuel argument (at least the length of the remaining list) makes the
recursion structural.  Defined for non-empty names; library names are
non-empty by construction (trimmed and checked on save). -/
def scanReplace (name body orig : List Char) : Nat → Nat → List Char → List Char
  | 0, _, l => l
  | _ + 1, _, [] => []
  | fuel + 1, i, c :: rest =>
    if name ≠ [] ∧ matchAt orig i name then
      getSubstitution name (orig.take i) (orig.drop (i + name.length)) body
        ++ scanReplace name body orig fuel (i + name.length) (List.drop (name.length - 1) rest)
    else
      c :: scanReplace name body orig fuel (i + 1) rest

/-- One pass of `result.replace(new RegExp("\\b" + name + "\\b", "g"), value)`. -/
def replaceWordBounded (name body s : String) : String :=
  String.mk (scanReplace name.data body.data s.data s.data.length 0 s.data)

/-- JavaScript whitespace (the WhiteSpace and LineTerminator productions),
as stripped by `String.prototype.trim`. -/
def isJsWhitespace (c : Char) : Bool :=
  decide (c = ' ' ∨ c.toNat = 9 ∨ c.toNat = 10 ∨ c.toNat = 11 ∨ c.toNat = 12 ∨ c.toNat = 13
    ∨ c.toNat = 160 ∨ c.toNat = 5760 ∨ (8192 ≤ c.toNat ∧ c.toNat ≤ 8202)
    ∨ c.toNat = 8232 ∨ c.toNat = 8233 ∨ c.toNat = 8239 ∨ c.toNat = 8287
    ∨ c.toNat = 12288 ∨ c.toNat = 65279)

/-- JavaScript `String.prototype.trim`. -/
def jsTrim (s : String) : String :=
  String.mk (((s.data.dropWhile isJsWhitespace).reverse.dropWhile isJsWhitespace).reverse)

/-- Numeric value of a digit string (used for the array-index key order of
JavaScript objects). -/
def arrayIndexVal (s : String) : Nat :=
  s.data.foldl (fun n c => 10 * n + (c.toNat - 48)) 0

/-- A property key is an array index (ECMAScript): the canonical decimal
numeral of an integer below 2^32 - 1 (digits only, no leading zero except
for the key consisting of the single digit zero). -/
def isArrayIndex (s : String) : Bool :=
  !s.data.isEmpty && s.data.all Char.isDigit
    && (decide (s.data[0]? ≠ some '0') || decide (s.data = ['0']))
    && decide (arrayIndexVal s < 4294967295)

/-- Sort key of a library entry when its name is an array index. -/
def idxVal (p : String × String) : Nat := arrayIndexVal p.1

/-- Comparison of library entries by ascending array-index value. -/
def idxLe (a b : String × String) : Prop := idxVal a ≤ idxVal b

/-- Insertion step of the insertion sort used to model the ascending
numeric order of array-index keys. -/
def insertSorted (x : String × String) : List (String × String) → List (String × String)
  | [] => [x]
  | y :: ys => if idxVal x ≤ idxVal y then x :: y :: ys else y :: insertSorted x ys

/-- Insertion sort by ascending array-index value. -/
def sortByIndex : List (String × String) → List (String × String)
  | [] => []
  | x :: xs => insertSorted x (sortByIndex xs)

/-- Own-property enumeration order of a JavaScript plain object whose
properties were created in the order of the list: array-index keys first in
ascending numeric order, then the remaining keys in insertion order.  This
is the order produced by `Object.entries` and by object spread. -/
def jsEntries (l : List (String × String)) : List (String × String) :=
  sortByIndex (l.filter (fun p => isArrayIndex p.1))
    ++ l.filter (fun p => !isArrayIndex p.1)

/-- Property upsert on an enumeration-ordered property list: an existing
key keeps its position and gets the new value, a new key is created at the
end.  Together with `jsEntries` this models `{...obj, [name]: value}`. -/
def jsUpsert (l : List (String × String)) (name value : String) : List (String × String) :=
  if l.any (fun p => p.1 == name) then
    l.map (fun p => if p.1 == name then (p.1, value) else p)
  else
    l ++ [(name, value)]

/-- One recorded reduction step, `{from: ..., to: ...}` in App.js. -/
structure ReductionStep where
  fromExpr : String
  toExpr : String
deriving DecidableEq

/-- The component state of App.js: the current expression text, the single
error/informational message slot, the saved-expression library (as the
property list of the `savedExpressions` object, in property creation
order), the two input fields of the save form, and the reduction history.
The `loading` flag and persistence to localStorage are presentation-level
and not part of the claims. -/
structure AppState where
  expression : String
  error : Option String
  savedExpressions : List (String × String)
  newExpressionName : String
  newExpressionValue : String
  history : List ReductionStep
deriving DecidableEq

/-- Initial component state (the useState defaults of App.js). -/
def initState : AppState :=
  { expression := "(λx.x) y"
    error := none
    savedExpressions := []
    newExpressionName := ""
    newExpressionValue := ""
    history := [] }

/-- The `replaceNamedExpressions` function of App.js: fold over
`Object.entries(savedExpressions)` replacing, for each entry in turn,
every word-bounded occurrence of its name in the current working string
by its value. -/
def replaceNamedExpressions (savedExpressions : List (String × String)) (expr : String) : String :=
  (jsEntries savedExpressions).foldl
    (fun result p => replaceWordBounded p.1 p.2 result) expr

/-- The `handleBetaReduce` handler of App.js.  The external WASM reducer
is the `oracle` parameter; `Except.error` models a thrown exception
(caught by the surrounding try/catch, which stringifies it into the error
message). -/
def handleBetaReduce (oracle : String → Except String String) (s : AppState) : AppState :=
  match oracle (replaceNamedExpressions s.savedExpressions s.expression) with
  | Except.error err => { s with error := some (("Error: ") ++ err) }
  | Except.ok result =>
    if result = s.expression then
      { s with error := some ("No further reduction possible.") }
    else
      { s with
        history := s.history ++ [{ fromExpr := s.expression, toExpr := result }]
        expression := result
        error := none }

/-- The `saveExpression` handler of App.js: validates that the trimmed
name and value are non-empty, then upserts the trimmed pair into the
saved-expressions object via spread, clears the two input fields and the
message slot. -/
def saveExpression (s : AppState) : AppState :=
  if jsTrim s.newExpressionName = "" ∨ jsTrim s.newExpressionValue = "" then
    { s with error := some ("Both name and expression are required") }
  else
    { s with
      savedExpressions :=
        jsUpsert (jsEntries s.savedExpressions) (jsTrim s.newExpressionName)
          (jsTrim s.newExpressionValue)
      newExpressionName := ""
      newExpressionValue := ""
      error := none }

/-- The `deleteExpression` handler of App.js: copies the object by spread
(which normalizes property order to enumeration order) and deletes the
named property.  No other field of the state is touched. -/
def deleteExpression (name : String) (s : AppState) : AppState :=
  { s with
    savedExpressions := (jsEntries s.savedExpressions).filter (fun p => !(p.1 == name)) }

/-- The `applyExpression` handler of App.js (the Use button). -/
def applyExpression (expr : String) (s : AppState) : AppState :=
  { s with expression := expr }

/-- The `clearHistory` handler of App.js. -/
def clearHistory (s : AppState) : AppState :=
  { s with history := [] }

/-- Typing a name into the save form. -/
def setNewExpressionName (n : String) (s : AppState) : AppState :=
  { s with newExpressionName := n }

/-- Typing a value into the save form. -/
def setNewExpressionValue (v : String) (s : AppState) : AppState :=
  { s with newExpressionValue := v }

/-- Editing the main expression textarea. -/
def setExpression (e : String) (s : AppState) : AppState :=
  { s with expression := e }

/-- Saving the pair `(n, v)`: type both fields, then click Save. -/
def save (n v : String) (s : AppState) : AppState :=
  saveExpression (setNewExpressionValue v (setNewExpressionName n s))

/-- States reachable from the initial state through the user-triggered
operations of the component (with an arbitrary reduction oracle on each
reduce click). -/
inductive Reachable : AppState → Prop
  | init : Reachable initState
  | edit (e : String) {s : AppState} : Reachable s → Reachable (setExpression e s)
  | editName (n : String) {s : AppState} : Reachable s → Reachable (setNewExpressionName n s)
  | editValue (v : String) {s : AppState} : Reachable s → Reachable (setNewExpressionValue v s)
  | saveClick {s : AppState} : Reachable s → Reachable (saveExpression s)
  | deleteClick (n : String) {s : AppState} : Reachable s → Reachable (deleteExpression n s)
  | reduceClick (oracle : String → Except String String) {s : AppState} :
      Reachable s → Reachable (handleBetaReduce oracle s)
  | useClick (e : String) {s : AppState} : Reachable s → Reachable (applyExpression e s)
  | clearClick {s : AppState} : Reachable s → Reachable (clearHistory s)

/-- Tokenization of a string into maximal runs of word characters and
individual non-word characters (fuelled; fuel at least the length of the
list suffices). -/
def tokenize : Nat → List Char → List (List Char)
  | 0, _ => []
  | _ + 1, [] => []
  | fuel + 1, c :: rest =>
    if isWordChar c then
      (c :: rest.takeWhile isWordChar) :: tokenize fuel (rest.dropWhile isWordChar)
    else
      [c] :: tokenize fuel rest

/-- Replace the tokens equal to `name` by `body` and concatenate. -/
def joinRepl (name body : List Char) (ts : List (List Char)) : List Char :=
  (ts.map (fun t => if t = name then body else t)).flatten

/-- Specification-level description of one library-entry substitution,
following the spec text: every occurrence of the name that appears as a
standalone token (a maximal identifier run bounded by non-identifier
characters or the string edges) is replaced by the body; occurrences
embedded in longer identifiers are untouched. -/
def standaloneTokenReplace (name body s : String) : String :=
  String.mk (joinRepl name.data body.data (tokenize s.data.length s.data))

/-- Simplified scan used to relate `scanReplace` to the token-level
specification: it carries only whether the previous character was a word
character, and inserts the body literally.  For a non-empty all-word-
character name and a `$`-free body it agrees with `scanReplace`. -/
def scanSimple (name body : List Char) : Nat → Bool → List Char → List Char
  | 0, _, l => l
  | _ + 1, _, [] => []
  | fuel + 1, prevW, c :: rest =>
    if prevW = false ∧ (c :: rest).take name.length = name
        ∧ wordOpt (c :: rest)[name.length]? = false then
      body ++ scanSimple name body fuel true ((c :: rest).drop name.length)
    else
      c :: scanSimple name body fuel (isWordChar c) rest

/-! ### Order lemmas for the property-enumeration model -/

theorem insertSorted_perm (x : String × String) (l : List (String × String)) :
    List.Perm (insertSorted x l) (x :: l) := by
  induction l with
  | nil => simp [insertSorted]
  | cons y ys ih =>
    by_cases h : idxVal x ≤ idxVal y
    · simp [insertSorted, h]
    · simp only [insertSorted, if_neg h]
      exact (ih.cons y).trans (List.Perm.swap x y ys)

theorem sortByIndex_perm (l : List (String × String)) :
    List.Perm (sortByIndex l) l := by
  induction l with
  | nil => simp [sortByIndex]
  | cons x xs ih =>
    exact (insertSorted_perm x (sortByIndex xs)).trans (ih.cons x)

theorem insertSorted_pairwise {x : String × String} {l : List (String × String)}
    (h : List.Pairwise idxLe l) : List.Pairwise idxLe (insertSorted x l) := by
  induction l with
  | nil => simp [insertSorted, List.pairwise_cons]
  | cons y ys ih =>
    rcases List.pairwise_cons.mp h with ⟨hy, hys⟩
    by_cases hxy : idxVal x ≤ idxVal y
    · simp only [insertSorted, if_pos hxy]
      refine List.pairwise_cons.mpr ⟨?_, h⟩
      intro b hb
      rcases List.mem_cons.mp hb with hb | hb
      · exact hb ▸ hxy
      · exact le_trans hxy (hy b hb)
    · simp only [insertSorted, if_neg hxy]
      refine List.pairwise_cons.mpr ⟨?_, ih hys⟩
      intro b hb
      have hb' : b ∈ x :: ys := (insertSorted_perm x ys).mem_iff.mp hb
      rcases List.mem_cons.mp hb' with hb' | hb'
      · subst hb'
        exact Nat.le_of_not_le hxy
      · exact hy b hb'

theorem sortByIndex_pairwise (l : List (String × String)) :
    List.Pairwise idxLe (sortByIndex l) := by
  induction l with
  | nil => simp [sortByIndex]
  | cons x xs ih => exact insertSorted_pairwise ih

theorem sortByIndex_eq_of_pairwise {l : List (String × String)}
    (h : List.Pairwise idxLe l) : sortByIndex l = l := by
  induction l with
  | nil => rfl
  | cons x xs ih =>
    rcases List.pairwise_cons.mp h with ⟨hx, hxs⟩
    simp only [sortByIndex, ih hxs]
    cases xs with
    | nil => rfl
    | cons y ys =>
      have hxy : idxVal x ≤ idxVal y := hx y (List.mem_cons_self y ys)
      simp [insertSorted, hxy]

theorem jsEntries_perm (l : List (String × String)) : List.Perm (jsEntries l) l := by
  unfold jsEntries
  exact ((sortByIndex_perm _).append_right _).trans
    (List.filter_append_perm (fun p => isArrayIndex p.1) l)

theorem jsEntries_eq_self_of_split {A B : List (String × String)}
    (hA : ∀ x ∈ A, isArrayIndex x.1 = true) (hAs : List.Pairwise idxLe A)
    (hB : ∀ x ∈ B, isArrayIndex x.1 = false) : jsEntries (A ++ B) = A ++ B := by
  unfold jsEntries
  rw [List.filter_append, List.filter_append]
  rw [List.filter_eq_self.mpr hA]
  rw [List.filter_eq_nil_iff.mpr (by intro a ha; simp [hB a ha])]
  rw [List.filter_eq_nil_iff.mpr (by intro a ha; simp [hA a ha])]
  rw [List.filter_eq_self.mpr (by intro a ha; simp [hB a ha])]
  rw [List.append_nil, List.nil_append, sortByIndex_eq_of_pairwise hAs]

theorem mem_jsEntries_left {l : List (String × String)} {x : String × String}
    (hx : x ∈ sortByIndex (l.filter (fun p => isArrayIndex p.1))) :
    isArrayIndex x.1 = true :=
  (List.mem_filter.mp ((sortByIndex_perm _).mem_iff.mp hx)).2

theorem jsEntries_idem (l : List (String × String)) :
    jsEntries (jsEntries l) = jsEntries l := by
  have := jsEntries_eq_self_of_split (A := sortByIndex (l.filter (fun p => isArrayIndex p.1)))
    (B := l.filter (fun p => !isArrayIndex p.1))
    (fun x hx => mem_jsEntries_left hx) (sortByIndex_pairwise _)
    (fun x hx => by
      have := (List.mem_filter.mp hx).2
      simpa using this)
  exact this

theorem jsEntries_filter_normalized (l : List (String × String)) (q : String × String → Bool) :
    jsEntries ((jsEntries l).filter q) = (jsEntries l).filter q := by
  unfold jsEntries
  rw [List.filter_append]
  exact jsEntries_eq_self_of_split
    (fun x hx => mem_jsEntries_left (List.mem_of_mem_filter hx))
    ((sortByIndex_pairwise _).filter q)
    (fun x hx => by
      have := (List.mem_filter.mp (List.mem_of_mem_filter hx)).2
      simpa using this)

theorem jsEntries_append_nonidx (l : List (String × String)) (k v : String)
    (hk : isArrayIndex k = false) :
    jsEntries (jsEntries l ++ [(k, v)]) = jsEntries l ++ [(k, v)] := by
  unfold jsEntries
  rw [List.append_assoc]
  exact jsEntries_eq_self_of_split
    (fun x hx => mem_jsEntries_left hx)
    (sortByIndex_pairwise _)
    (fun x hx => by
      rcases List.mem_append.mp hx with hx | hx
      · have := (List.mem_filter.mp hx).2
        simpa using this
      · rcases List.mem_singleton.mp hx with rfl
        exact hk)

/-! ### Claims about the reduction controller (`handleBetaReduce`) -/

/-- C1 (counterexample): the claim that `expand("a", {a: "b", b: "c"}) = "b"`
is false on the code: `replaceNamedExpressions` folds over the entries
replacing inside the *updated* working string, so the `"b"` inserted by the
first entry is replaced by the later entry `b`, yielding `"c"`. -/
theorem C1_single_pass_counterexample :
    replaceNamedExpressions [("a", "b"), ("b", "c")] ("a") ≠ ("b") := by decide

/-- C1 (amended): for the library `{a: "b", b: "c"}` (in that order) and
input `"a"`, `expand` returns `"c"`: the text inserted when expanding
entry `a` is itself expanded by the later entry `b`.  A name inserted by a
substitution is only left unexpanded when it refers to an entry defined
*earlier* than the point the fold has reached: with library
`{a: "x", b: "a"}` and input `"b"` the result is `"a"`, not `"x"`. -/
theorem C1_single_pass_amended :
    replaceNamedExpressions [("a", "b"), ("b", "c")] ("a") = ("c")
    ∧ replaceNamedExpressions [("a", "x"), ("b", "a")] ("b") = ("a") := by decide

/-- C2: if the library expansion changes the text but the oracle returns
the expanded text unchanged, the controller still treats it as progress:
it commits the expanded text as the new current expression, appends
`{from: old, to: expanded}` to the history, and clears the message slot. -/
theorem C2_expansion_committed_as_progress (oracle : String → Except String String)
    (s : AppState)
    (hdiff : replaceNamedExpressions s.savedExpressions s.expression ≠ s.expression)
    (horacle : oracle (replaceNamedExpressions s.savedExpressions s.expression)
      = Except.ok (replaceNamedExpressions s.savedExpressions s.expression)) :
    (handleBetaReduce oracle s).expression
        = replaceNamedExpressions s.savedExpressions s.expression
    ∧ (handleBetaReduce oracle s).history
        = s.history ++ [{ fromExpr := s.expression
                          toExpr := replaceNamedExpressions s.savedExpressions s.expression }]
    ∧ (handleBetaReduce oracle s).error = none := by
  unfold handleBetaReduce
  rw [horacle]
  simp [hdiff]

/-- C2 (witness): with library `{a: "b"}`, current expression `"a"` and an
identity oracle, one step commits `"b"` and records `{from: "a", to: "b"}`. -/
theorem C2_witness :
    (handleBetaReduce (fun t => Except.ok t)
        { initState with savedExpressions := [("a", "b")], expression := "a" }).expression
      = ("b")
    ∧ (handleBetaReduce (fun t => Except.ok t)
        { initState with savedExpressions := [("a", "b")], expression := "a" }).history
      = [{ fromExpr := ("a"), toExpr := ("b") }]
    ∧ (handleBetaReduce (fun t => Except.ok t)
        { initState with savedExpressions := [("a", "b")], expression := "a" }).error = none := by
  have h := C2_expansion_committed_as_progress (fun t => Except.ok t)
    { initState with savedExpressions := [("a", "b")], expression := "a" }
    (by decide) rfl
  refine ⟨?_, ?_, h.2.2⟩
  · rw [h.1]; decide
  · rw [h.2.1]; decide

/-- C3: whenever the oracle returns a string `r` different from the current
expression, the step appends exactly the entry `{from: current, to: r}` at
the end of the history (earlier entries untouched, in place) and commits
`r` as the new current expression. -/
theorem C3_progress_appends_one_entry (oracle : String → Except String String)
    (s : AppState) (r : String)
    (horacle : oracle (replaceNamedExpressions s.savedExpressions s.expression) = Except.ok r)
    (hne : r ≠ s.expression) :
    (handleBetaReduce oracle s).history = s.history ++ [{ fromExpr := s.expression, toExpr := r }]
    ∧ (handleBetaReduce oracle s).expression = r := by
  unfold handleBetaReduce
  rw [horacle]
  simp [hne]

/-- C3 (witness): the end-to-end example of the spec: starting from
`"(λx.x) y"` with an oracle returning `"y"`, the history gains exactly
`{from: "(λx.x) y", to: "y"}` and the current expression becomes `"y"`. -/
theorem C3_witness :
    (handleBetaReduce (fun _ => Except.ok ("y")) initState).history
      = [{ fromExpr := ("(λx.x) y"), toExpr := ("y") }]
    ∧ (handleBetaReduce (fun _ => Except.ok ("y")) initState).expression = ("y") := by
  have h := C3_progress_appends_one_entry (fun _ => Except.ok ("y")) initState ("y")
    rfl (by decide)
  refine ⟨?_, h.2⟩
  rw [h.1]; decide

/-- C4: if the oracle output equals the original (unexpanded) current
expression, the step is a no-progress outcome: expression, history and
library are untouched and the informational message is surfaced. -/
theorem C4_no_progress (oracle : String → Except String String) (s : AppState)
    (horacle : oracle (replaceNamedExpressions s.savedExpressions s.expression)
      = Except.ok s.expression) :
    (handleBetaReduce oracle s).expression = s.expression
    ∧ (handleBetaReduce oracle s).history = s.history
    ∧ (handleBetaReduce oracle s).savedExpressions = s.savedExpressions
    ∧ (handleBetaReduce oracle s).error = some ("No further reduction possible.") := by
  unfold handleBetaReduce
  rw [horacle]
  simp

/-- C4 (witness): an identity oracle on the initial state (empty library,
so expansion is the identity) reports no further reduction and changes
nothing. -/
theorem C4_witness :
    (handleBetaReduce (fun t => Except.ok t) initState).expression = initState.expression
    ∧ (handleBetaReduce (fun t => Except.ok t) initState).history = initState.history
    ∧ (handleBetaReduce (fun t => Except.ok t) initState).savedExpressions
        = initState.savedExpressions
    ∧ (handleBetaReduce (fun t => Except.ok t) initState).error
        = some ("No further reduction possible.") :=
  C4_no_progress (fun t => Except.ok t) initState rfl

/-- C5: if the oracle raises, the step is atomic: expression, history and
library are exactly as before, and the failure detail is surfaced in the
error message. -/
theorem C5_oracle_failure_atomic (oracle : String → Except String String)
    (s : AppState) (d : String)
    (horacle : oracle (replaceNamedExpressions s.savedExpressions s.expression)
      = Except.error d) :
    (handleBetaReduce oracle s).expression = s.expression
    ∧ (handleBetaReduce oracle s).history = s.history
    ∧ (handleBetaReduce oracle s).savedExpressions = s.savedExpressions
    ∧ (handleBetaReduce oracle s).error = some (("Error: ") ++ d) := by
  unfold handleBetaReduce
  rw [horacle]
  simp

/-- C5 (witness): a failing oracle on the initial state changes no state
and surfaces the detail. -/
theorem C5_witness :
    (handleBetaReduce (fun _ => Except.error ("boom")) initState).expression
        = initState.expression
    ∧ (handleBetaReduce (fun _ => Except.error ("boom")) initState).history
        = initState.history
    ∧ (handleBetaReduce (fun _ => Except.error ("boom")) initState).savedExpressions
        = initState.savedExpressions
    ∧ (handleBetaReduce (fun _ => Except.error ("boom")) initState).error
        = some (("Error: ") ++ ("boom")) :=
  C5_oracle_failure_atomic (fun _ => Except.error ("boom")) initState ("boom") rfl

/-! ### Claims about the message slot and the delete frame -/

/-- C9 (counterexample): a successful delete does not clear the message
slot.  After a failed save left a validation message, deleting the entry
`k` succeeds (the library becomes empty) yet the stale message from the
earlier operation is still active. -/
theorem C9_stale_message_counterexample :
    ((deleteExpression ("k") (save ("") ("y") (save ("k") ("v") initState))).error
        = some ("Both name and expression are required"))
    ∧ (deleteExpression ("k") (save ("") ("y") (save ("k") ("v") initState))).savedExpressions
        = [] := by decide

/-- C9 (amended): the message slot is a single `Option` value, so at most
one message is active at a time, and a successful save or a reduce step
(in each of its outcomes) clears or supersedes the previous message; but
delete, apply-from-library and clear-history leave the slot untouched, so
a stale message can survive those operations. -/
theorem C9_message_slot_amended (s : AppState) (oracle : String → Except String String)
    (n v nm e r d : String) :
    (jsTrim n ≠ ("") → jsTrim v ≠ ("") → (save n v s).error = none)
    ∧ (oracle (replaceNamedExpressions s.savedExpressions s.expression) = Except.ok r →
        r ≠ s.expression → (handleBetaReduce oracle s).error = none)
    ∧ (oracle (replaceNamedExpressions s.savedExpressions s.expression)
          = Except.ok s.expression →
        (handleBetaReduce oracle s).error = some ("No further reduction possible."))
    ∧ (oracle (replaceNamedExpressions s.savedExpressions s.expression) = Except.error d →
        (handleBetaReduce oracle s).error = some (("Error: ") ++ d))
    ∧ (deleteExpression nm s).error = s.error
    ∧ (applyExpression e s).error = s.error
    ∧ (clearHistory s).error = s.error := by
  refine ⟨?_, ?_, ?_, ?_, rfl, rfl, rfl⟩
  · intro h1 h2
    simp [save, saveExpression, setNewExpressionName, setNewExpressionValue, h1, h2]
  · intro horacle hne
    unfold handleBetaReduce
    rw [horacle]
    simp [hne]
  · intro horacle
    unfold handleBetaReduce
    rw [horacle]
    simp
  · intro horacle
    unfold handleBetaReduce
    rw [horacle]

/-- C9 (witness): the amended message-slot behaviour at concrete inputs:
a successful save and a progressing reduce clear the message, a
no-progress or failing reduce supersedes it, and delete, apply and
clear-history leave it unchanged. -/
theorem C9_witness :
    (save ("k") ("v") initState).error = none
    ∧ (handleBetaReduce (fun _ => Except.ok ("y")) initState).error = none
    ∧ (handleBetaReduce (fun t => Except.ok t) initState).error
        = some ("No further reduction possible.")
    ∧ (handleBetaReduce (fun _ => Except.error ("boom")) initState).error
        = some (("Error: ") ++ ("boom"))
    ∧ (deleteExpression ("k") initState).error = initState.error
    ∧ (applyExpression ("y") initState).error = initState.error
    ∧ (clearHistory initState).error = initState.error := by
  have h1 := C9_message_slot_amended initState (fun _ => Except.ok ("y"))
    ("k") ("v") ("k") ("y") ("y") ("boom")
  have h2 := C9_message_slot_amended initState (fun t => Except.ok t)
    ("k") ("v") ("k") ("y") ("y") ("boom")
  have h3 := C9_message_slot_amended initState (fun _ => Except.error ("boom"))
    ("k") ("v") ("k") ("y") ("y") ("boom")
  exact ⟨h1.1 (by decide) (by decide),
         h1.2.1 rfl (by decide),
         h2.2.2.1 rfl,
         h3.2.2.2.1 rfl,
         h1.2.2.2.2.1, h1.2.2.2.2.2.1, h1.2.2.2.2.2.2⟩

/-- C10: delete mutates nothing except the entry with the given name:
current expression, history, message slot and the save-form fields are
unchanged, and the observable library entries after the delete are exactly
the observable entries before it with the named entry removed (all other
entries keep their bodies and their relative order), whether or not the
name was present. -/
theorem C10_delete_frame (s : AppState) (name : String) :
    (deleteExpression name s).expression = s.expression
    ∧ (deleteExpression name s).history = s.history
    ∧ (deleteExpression name s).error = s.error
    ∧ (deleteExpression name s).newExpressionName = s.newExpressionName
    ∧ (deleteExpression name s).newExpressionValue = s.newExpressionValue
    ∧ jsEntries ((deleteExpression name s).savedExpressions)
        = (jsEntries s.savedExpressions).filter (fun p => !(p.1 == name)) :=
  ⟨rfl, rfl, rfl, rfl, rfl, jsEntries_filter_normalized s.savedExpressions _⟩

/-! ### Library invariants: save/delete -/

theorem handleBetaReduce_savedExpressions (oracle : String → Except String String)
    (s : AppState) : (handleBetaReduce oracle s).savedExpressions = s.savedExpressions := by
  unfold handleBetaReduce
  cases oracle (replaceNamedExpressions s.savedExpressions s.expression) with
  | error e => rfl
  | ok r =>
    by_cases h : r = s.expression
    · simp [h]
    · simp [h]

theorem keys_nodup_jsEntries {l : List (String × String)}
    (h : List.Nodup (l.map Prod.fst)) : List.Nodup ((jsEntries l).map Prod.fst) :=
  (((jsEntries_perm l).map Prod.fst).symm).nodup h

theorem keys_nodup_upsert {l : List (String × String)} (n v : String)
    (h : List.Nodup (l.map Prod.fst)) :
    List.Nodup ((jsUpsert l n v).map Prod.fst) := by
  unfold jsUpsert
  by_cases hmem : l.any (fun p => p.1 == n)
  · rw [if_pos hmem, List.map_map]
    have : (Prod.fst ∘ fun p : String × String => if p.1 == n then (p.1, v) else p)
        = Prod.fst := by
      funext p
      by_cases hp : p.1 = n <;> simp [hp]
    rw [this]
    exact h
  · rw [if_neg hmem, List.map_append]
    have hn : n ∉ l.map Prod.fst := by
      intro hcon
      rcases List.mem_map.mp hcon with ⟨p, hp, hfst⟩
      have := List.any_eq_false.mp (Bool.eq_false_iff.mpr hmem) p hp
      simp [hfst] at this
    refine List.Nodup.append h (List.nodup_singleton n) ?_
    intro a ha hb
    rcases List.mem_singleton.mp hb with rfl
    exact hn ha

theorem reachable_keys_nodup (s : AppState) (h : Reachable s) :
    List.Nodup (s.savedExpressions.map Prod.fst) := by
  induction h with
  | init => simp [initState]
  | edit e h ih => exact ih
  | editName n h ih => exact ih
  | editValue v h ih => exact ih
  | saveClick h ih =>
    unfold saveExpression
    split
    · exact ih
    · exact keys_nodup_upsert _ _ (keys_nodup_jsEntries ih)
  | deleteClick n h ih =>
    exact (keys_nodup_jsEntries ih).sublist ((List.filter_sublist _).map Prod.fst)
  | reduceClick oracle h ih =>
    rw [handleBetaReduce_savedExpressions]
    exact ih
  | useClick e h ih => exact ih
  | clearClick h ih => exact ih

/-- C6 (counterexample): `save("id", "λx.x")` followed by `delete("id")`
does not restore an arbitrary pre-save library: if `id` was already
present (here with body `"y"`), the save overwrites it and the delete then
removes the entry entirely, so the original binding is lost. -/
theorem C6_save_delete_counterexample :
    jsEntries ((deleteExpression ("id")
        (save ("id") ("λx.x") (save ("id") ("y") initState))).savedExpressions)
      ≠ jsEntries ((save ("id") ("y") initState).savedExpressions) := by decide

/-- C6 (amended): provided the name `id` is not already bound in the
library, `save("id", "λx.x")` followed by `delete("id")` restores the
observable library exactly (structural equality, including the order of
the remaining entries). -/
theorem C6_save_delete_restores (s : AppState)
    (h : ∀ p ∈ jsEntries s.savedExpressions, p.1 ≠ ("id")) :
    jsEntries ((deleteExpression ("id") (save ("id") ("λx.x") s)).savedExpressions)
      = jsEntries s.savedExpressions := by
  have hid : jsTrim ("id") = ("id") := by decide
  have hlam : jsTrim ("λx.x") = ("λx.x") := by decide
  have hany : (jsEntries s.savedExpressions).any (fun p => p.1 == ("id")) = false := by
    rw [List.any_eq_false]
    intro p hp
    simp [h p hp]
  have hsave : (save ("id") ("λx.x") s).savedExpressions
      = jsEntries s.savedExpressions ++ [(("id"), ("λx.x"))] := by
    simp only [save, setNewExpressionName, setNewExpressionValue, saveExpression]
    rw [if_neg (by decide)]
    simp only [jsUpsert, hid, hlam]
    rw [if_neg (by simp [hany])]
  simp only [deleteExpression, hsave]
  rw [jsEntries_append_nonidx _ _ _ (by decide)]
  rw [List.filter_append]
  rw [List.filter_eq_self.mpr (by intro p hp; simp [h p hp])]
  rw [List.filter_eq_nil_iff.mpr (by intro p hp; rcases List.mem_singleton.mp hp with rfl; simp)]
  rw [List.append_nil]
  exact jsEntries_idem s.savedExpressions

/-- C6 (witness): with the unrelated entry `k` present, saving `id` and
deleting it restores the library. -/
theorem C6_witness :
    jsEntries ((deleteExpression ("id")
        (save ("id") ("λx.x") (save ("k") ("y") initState))).savedExpressions)
      = jsEntries ((save ("k") ("y") initState).savedExpressions) :=
  C6_save_delete_restores (save ("k") ("y") initState) (by decide)

/-- C7 (counterexample): the observable entry order is not always the
insertion order: JavaScript objects enumerate array-index keys first, so
after saving `x` and then `0`, `Object.entries` lists `0` before `x`. -/
theorem C7_insertion_order_counterexample :
    jsEntries ((save ("0") ("b") (save ("x") ("a") initState)).savedExpressions)
      = [(("0"), ("b")), (("x"), ("a"))]
    ∧ [(("0"), ("b")), (("x"), ("a"))] ≠ [(("x"), ("a")), (("0"), ("b"))] := by decide

/-- C7 (amended): for every save with non-empty trimmed name and body, the
save upserts the trimmed pair: if the trimmed name is present in the
observable entries the entry keeps its position and only its body changes
(an entry-wise map), and if it is absent the new entry is appended at the
end of the observable entries; duplicate names are impossible in every
reachable state.  The observable order is the enumeration order of the
`savedExpressions` object, which is insertion order only among names that
are not array-index strings (array-index names are listed first, in
ascending numeric order, as the counterexample shows). -/
theorem C7_upsert_amended (s : AppState) (n v : String)
    (hn : jsTrim n ≠ ("")) (hv : jsTrim v ≠ ("")) :
    ((jsEntries s.savedExpressions).any (fun p => p.1 == jsTrim n) = true →
      (save n v s).savedExpressions
        = (jsEntries s.savedExpressions).map
            (fun p => if p.1 == jsTrim n then (p.1, jsTrim v) else p))
    ∧ ((jsEntries s.savedExpressions).any (fun p => p.1 == jsTrim n) = false →
      (save n v s).savedExpressions
        = jsEntries s.savedExpressions ++ [(jsTrim n, jsTrim v)])
    ∧ (∀ s2 : AppState, Reachable s2 → List.Nodup (s2.savedExpressions.map Prod.fst)) := by
  refine ⟨?_, ?_, reachable_keys_nodup⟩
  · intro hany
    simp only [save, setNewExpressionName, setNewExpressionValue, saveExpression]
    rw [if_neg (by simp [hn, hv])]
    simp only [jsUpsert]
    rw [if_pos hany]
  · intro hany
    simp only [save, setNewExpressionName, setNewExpressionValue, saveExpression]
    rw [if_neg (by simp [hn, hv])]
    simp only [jsUpsert]
    rw [if_neg (by simp [hany])]

/-- C7 (witness): saving the (untrimmed) pair `" id "`, `" λx.x "` into
the empty initial library appends the trimmed entry, and the initial state
has no duplicate names. -/
theorem C7_witness :
    (save (" id ") (" λx.x ") initState).savedExpressions = [(("id"), ("λx.x"))]
    ∧ List.Nodup (initState.savedExpressions.map Prod.fst) := by
  have h := C7_upsert_amended initState (" id ") (" λx.x ") (by decide) (by decide)
  refine ⟨?_, h.2.2 initState Reachable.init⟩
  have h2 := h.2.1 (by decide)
  rw [h2]
  decide

/-! ### Relating the regex scan to the token-level specification -/

theorem getSubstitution_of_no_dollar (m b a : List Char) :
    ∀ repl : List Char, (∀ c ∈ repl, ¬ c = dollarChar) → getSubstitution m b a repl = repl
  | [], _ => rfl
  | [c], _ => rfl
  | c :: d :: rest2, h => by
    have hc : ¬ c = dollarChar := h c (List.mem_cons_self c (d :: rest2))
    have ih := getSubstitution_of_no_dollar m b a (d :: rest2)
      (fun x hx => h x (List.mem_cons_of_mem c hx))
    simp only [getSubstitution, if_neg hc, ih]

theorem wordOpt_head_of_all {name : List Char} (hname : name ≠ [])
    (hword : ∀ c ∈ name, isWordChar c = true) : wordOpt name[0]? = true := by
  cases name with
  | nil => exact absurd rfl hname
  | cons nh nt =>
    simp only [List.getElem?_cons_zero, wordOpt]
    exact hword nh (List.mem_cons_self nh nt)

theorem wordOpt_last_of_all {name : List Char} (hname : name ≠ [])
    (hword : ∀ c ∈ name, isWordChar c = true) :
    wordOpt name[name.length - 1]? = true := by
  have hlt : name.length - 1 < name.length := by
    cases name with
    | nil => exact absurd rfl hname
    | cons nh nt => simp
  rw [List.getElem?_eq_getElem hlt]
  exact hword _ (List.getElem_mem hlt)

theorem scanReplace_eq_scanSimple {name : List Char} (body orig : List Char)
    (hname : name ≠ []) (hword : ∀ c ∈ name, isWordChar c = true)
    (hbody : ∀ c ∈ body, ¬ c = dollarChar) :
    ∀ fuel i l, l = orig.drop i →
      scanReplace name body orig fuel i l
        = scanSimple name body fuel (wordOpt (if i = 0 then none else orig[i - 1]?)) l := by
  have h0 := wordOpt_head_of_all hname hword
  have hlast := wordOpt_last_of_all hname hword
  have hnl : 1 ≤ name.length := by
    cases name with
    | nil => exact absurd rfl hname
    | cons nh nt => simp
  intro fuel
  induction fuel with
  | zero => intro i l hl; rfl
  | succ fuel ih =>
    intro i l hl
    cases l with
    | nil => rfl
    | cons c rest =>
      have hip : (c :: rest)[name.length]? = orig[i + name.length]? := by
        rw [hl]
        exact List.getElem?_drop orig i name.length
      by_cases hm : matchAt orig i name
      · obtain ⟨htake, hleft, hright⟩ := hm
        have htake' : (c :: rest).take name.length = name := by rw [hl]; exact htake
        have hleftF : wordOpt (if i = 0 then none else orig[i - 1]?) = false := by
          rw [h0] at hleft
          cases hb : wordOpt (if i = 0 then none else orig[i - 1]?) with
          | false => rfl
          | true => exact absurd hb hleft
        have hrightF : wordOpt (c :: rest)[name.length]? = false := by
          rw [hlast] at hright
          rw [hip]
          cases hb : wordOpt orig[i + name.length]? with
          | false => rfl
          | true => exact absurd hb.symm hright
        simp only [scanReplace, scanSimple]
        rw [if_pos ⟨hname, htake, hleft, hright⟩]
        rw [if_pos ⟨hleftF, htake', hrightF⟩]
        rw [getSubstitution_of_no_dollar _ _ _ body hbody]
        have hdrop_eq : List.drop (name.length - 1) rest = (c :: rest).drop name.length := by
          cases name with
          | nil => exact absurd rfl hname
          | cons nh nt => simp
        have hl' : (c :: rest).drop name.length = orig.drop (i + name.length) := by
          rw [hl, List.drop_drop]
        congr 1
        rw [hdrop_eq, ih (i + name.length) _ hl']
        have hprev : wordOpt (if i + name.length = 0 then none
            else orig[i + name.length - 1]?) = true := by
          rw [if_neg (by omega)]
          have h1 : i + name.length - 1 = i + (name.length - 1) := by omega
          have h2 : orig[i + (name.length - 1)]? = (c :: rest)[name.length - 1]? := by
            rw [hl]
            exact (List.getElem?_drop orig i (name.length - 1)).symm
          have h3 : (c :: rest)[name.length - 1]? = name[name.length - 1]? := by
            have h4 : name[name.length - 1]? = ((c :: rest).take name.length)[name.length - 1]? := by
              rw [htake']
            rw [h4, List.getElem?_take, if_pos (by omega)]
          rw [h1, h2, h3, hlast]
        rw [hprev]
      · have hcondF : ¬ (wordOpt (if i = 0 then none else orig[i - 1]?) = false
            ∧ (c :: rest).take name.length = name
            ∧ wordOpt (c :: rest)[name.length]? = false) := by
          rintro ⟨hpF, htake', hrF⟩
          apply hm
          refine ⟨by rw [← hl]; exact htake', ?_, ?_⟩
          · rw [h0, hpF]
            simp
          · rw [hlast, ← hip, hrF]
            simp
        simp only [scanReplace, scanSimple]
        rw [if_neg (fun hcond => hm hcond.2)]
        rw [if_neg hcondF]
        have hl2 : rest = orig.drop (i + 1) := by
          have h5 := congrArg (List.drop 1) hl
          simpa [List.drop_drop] using h5
        congr 1
        rw [ih (i + 1) rest hl2]
        have hprev : wordOpt (if i + 1 = 0 then none else orig[i + 1 - 1]?)
            = isWordChar c := by
          rw [if_neg (by omega)]
          have h6 : i + 1 - 1 = i + 0 := by omega
          have h7 : orig[i + 0]? = (c :: rest)[0]? := by
            rw [hl]
            exact (List.getElem?_drop orig i 0).symm
          rw [h6, h7, List.getElem?_cons_zero]
          rfl
        rw [hprev]

theorem wordOpt_dropWhile_head (l : List Char) :
    wordOpt (l.dropWhile isWordChar)[0]? = false := by
  induction l with
  | nil => rfl
  | cons c rest ih =>
    by_cases hc : isWordChar c
    · simpa [List.dropWhile_cons, hc] using ih
    · have hcF : isWordChar c = false := by simpa using hc
      simp [List.dropWhile_cons, hcF, wordOpt]

theorem scanSimple_word_run (name body : List Char) :
    ∀ run l fuel, (∀ c ∈ run, isWordChar c = true) → run.length + l.length ≤ fuel →
      scanSimple name body fuel true (run ++ l)
        = run ++ scanSimple name body (fuel - run.length) true l := by
  intro run
  induction run with
  | nil => intro l fuel h hb; simp
  | cons r rs ih =>
    intro l fuel h hb
    cases fuel with
    | zero => simp at hb
    | succ f =>
      have hb' : rs.length + l.length ≤ f := by
        simp only [List.length_cons] at hb
        omega
      have ihh := ih l f (fun c hc => h c (List.mem_cons_of_mem r hc)) hb'
      simp only [List.cons_append, scanSimple]
      split
      · rename_i hcontra
        exact absurd hcontra.1 (by simp)
      · simp only [List.append_eq]
        rw [h r (List.mem_cons_self r rs), ihh]
        have hfuel : f + 1 - (r :: rs).length = f - rs.length := by
          simp only [List.length_cons]
          omega
        rw [hfuel]

theorem no_match_of_run_ne {name : List Char} (hname : name ≠ [])
    (hword : ∀ c ∈ name, isWordChar c = true) (run tail : List Char)
    (hrunword : ∀ c ∈ run, isWordChar c = true)
    (htail : wordOpt tail[0]? = false) (hne : run ≠ name) :
    ¬ ((run ++ tail).take name.length = name
        ∧ wordOpt (run ++ tail)[name.length]? = false) := by
  rintro ⟨htake, hright⟩
  rcases Nat.lt_trichotomy name.length run.length with hlt | heq | hgt
  · have h1 : (run ++ tail)[name.length]? = run[name.length]? := by
      simp [List.getElem?_append, hlt]
    have h2 : run[name.length]? = some run[name.length] := List.getElem?_eq_getElem hlt
    rw [h1, h2] at hright
    have h3 := hrunword _ (List.getElem_mem hlt)
    simp [wordOpt, h3] at hright
  · rw [heq, List.take_left] at htake
    exact hne htake
  · have h3 : name[run.length]? = (run ++ tail)[run.length]? := by
      conv_lhs => rw [← htake]
      rw [List.getElem?_take, if_pos hgt]
    have h4 : (run ++ tail)[run.length]? = tail[0]? := by
      rw [List.getElem?_append_right (le_refl _)]
      simp
    have h5 : name[run.length]? = some name[run.length] := List.getElem?_eq_getElem hgt
    have h6 : tail[0]? = some name[run.length] := by rw [← h4, ← h3, h5]
    have h7 := hword _ (List.getElem_mem hgt)
    rw [h6] at htail
    simp [wordOpt, h7] at htail

theorem scanSimple_nonword_head {name : List Char} (body : List Char)
    (hname : name ≠ []) (hword : ∀ c ∈ name, isWordChar c = true)
    (d : Char) (hd : isWordChar d = false) (p : Bool) (t : List Char) (f : Nat) :
    scanSimple name body (f + 1) p (d :: t) = d :: scanSimple name body f false t := by
  have hcond : ¬ (p = false ∧ (d :: t).take name.length = name
      ∧ wordOpt (d :: t)[name.length]? = false) := by
    rintro ⟨-, htake, -⟩
    cases name with
    | nil => exact hname rfl
    | cons nh nt =>
      rw [List.length_cons, List.take_succ_cons] at htake
      have hdn : d = nh := (List.cons_eq_cons.mp htake).1
      have hnh := hword nh (List.mem_cons_self nh nt)
      rw [hdn, hnh] at hd
      simp at hd
  simp only [scanSimple]
  rw [if_neg hcond, hd]

theorem scanSimple_eq_tokens {name : List Char} (body : List Char)
    (hname : name ≠ []) (hword : ∀ c ∈ name, isWordChar c = true) :
    ∀ N l fuelS fuelT, l.length ≤ N → l.length ≤ fuelS → l.length ≤ fuelT →
      scanSimple name body fuelS false l = joinRepl name body (tokenize fuelT l) := by
  intro N
  induction N with
  | zero =>
    intro l fuelS fuelT hN hS hT
    have hnil : l = [] := List.length_eq_zero.mp (Nat.le_zero.mp hN)
    subst hnil
    cases fuelS <;> cases fuelT <;> rfl
  | succ N ih =>
    intro l fuelS fuelT hN hS hT
    cases l with
    | nil => cases fuelS <;> cases fuelT <;> rfl
    | cons c rest =>
      simp only [List.length_cons] at hN hS hT
      cases fuelS with
      | zero => omega
      | succ fS =>
      cases fuelT with
      | zero => omega
      | succ fT =>
      have hTstep : ∀ (d : Char) (t2 : List Char) (fS2 fT2 : Nat),
          isWordChar d = false → t2.length ≤ N → t2.length + 1 ≤ fS2 →
          t2.length + 1 ≤ fT2 →
          scanSimple name body fS2 true (d :: t2)
            = joinRepl name body (tokenize fT2 (d :: t2)) := by
        intro d t2 fS2 fT2 hd ht2 h1 h2
        cases fS2 with
        | zero => omega
        | succ fS2 =>
        cases fT2 with
        | zero => omega
        | succ fT2 =>
        rw [scanSimple_nonword_head body hname hword d hd true t2 fS2]
        have htok2 : tokenize (fT2 + 1) (d :: t2) = [d] :: tokenize fT2 t2 := by
          simp [tokenize, hd]
        rw [htok2]
        have hdn : ¬ ([d] = name) := by
          intro heq
          have := hword d (by rw [← heq]; exact List.mem_singleton_self d)
          rw [this] at hd
          cases hd
        simp only [joinRepl, List.map_cons, List.flatten_cons, if_neg hdn]
        rw [ih t2 fS2 fT2 ht2 (by omega) (by omega)]
        simp [joinRepl]
      by_cases hw : isWordChar c
      · -- word-character head: the token is the maximal run starting at c
        have hsplit : rest.takeWhile isWordChar ++ rest.dropWhile isWordChar = rest :=
          List.takeWhile_append_dropWhile isWordChar rest
        have hrunword : ∀ x ∈ c :: rest.takeWhile isWordChar, isWordChar x = true := by
          intro x hx
          rcases List.mem_cons.mp hx with rfl | hx
          · exact hw
          · exact List.mem_takeWhile_imp hx
        have htail0 : wordOpt (rest.dropWhile isWordChar)[0]? = false :=
          wordOpt_dropWhile_head rest
        have htok : tokenize (fT + 1) (c :: rest)
            = (c :: rest.takeWhile isWordChar) :: tokenize fT (rest.dropWhile isWordChar) := by
          simp [tokenize, hw]
        have hlen2 : (rest.takeWhile isWordChar).length
            + (rest.dropWhile isWordChar).length = rest.length := by
          conv_rhs => rw [← hsplit]
          rw [List.length_append]
        have hview : c :: rest = (c :: rest.takeWhile isWordChar) ++ rest.dropWhile isWordChar := by
          simp [hsplit]
        have htails : scanSimple name body (fS - (rest.takeWhile isWordChar).length) true
              (rest.dropWhile isWordChar)
            = joinRepl name body (tokenize fT (rest.dropWhile isWordChar)) := by
          cases hdw : rest.dropWhile isWordChar with
          | nil =>
            cases h9 : fS - (rest.takeWhile isWordChar).length <;> cases fT <;> rfl
          | cons d t2 =>
            have hd : isWordChar d = false := by
              rw [hdw] at htail0
              simpa [wordOpt] using htail0
            have hlen3 : t2.length + 1 = (rest.dropWhile isWordChar).length := by
              rw [hdw]
              simp
            exact hTstep d t2 _ fT hd (by omega) (by omega) (by omega)
        by_cases hrn : c :: rest.takeWhile isWordChar = name
        · -- the leading token is exactly the name: it is replaced
          have htake : (c :: rest).take name.length = name := by
            rw [hview, hrn, List.take_left]
          have hrightF : wordOpt (c :: rest)[name.length]? = false := by
            have : (c :: rest)[name.length]? = (rest.dropWhile isWordChar)[0]? := by
              conv_lhs => rw [hview, hrn]
              rw [List.getElem?_append_right (le_refl _)]
              simp
            rw [this]
            exact htail0
          have hstep : scanSimple name body (fS + 1) false (c :: rest)
              = body ++ scanSimple name body fS true ((c :: rest).drop name.length) := by
            simp only [scanSimple]
            split
            · rfl
            · rename_i hcontra
              exact absurd ⟨by trivial, htake, hrightF⟩ hcontra
          rw [hstep]
          have hdrop : (c :: rest).drop name.length = rest.dropWhile isWordChar := by
            rw [hview, hrn, List.drop_left]
          rw [hdrop, htok]
          simp only [joinRepl, List.map_cons, List.flatten_cons, if_pos hrn]
          have hrun1 : (rest.takeWhile isWordChar).length + 1 = name.length := by
            rw [← hrn]
            simp
          have htails2 : scanSimple name body fS true (rest.dropWhile isWordChar)
              = joinRepl name body (tokenize fT (rest.dropWhile isWordChar)) := by
            cases hdw : rest.dropWhile isWordChar with
            | nil => cases fS <;> cases fT <;> rfl
            | cons d t2 =>
              have hd : isWordChar d = false := by
                rw [hdw] at htail0
                simpa [wordOpt] using htail0
              have hlen3 : t2.length + 1 = (rest.dropWhile isWordChar).length := by
                rw [hdw]
                simp
              exact hTstep d t2 fS fT hd (by omega) (by omega) (by omega)
          rw [htails2]
          simp [joinRepl]
        · -- the leading token differs from the name: it is copied verbatim
          have hcond3 : ¬ (((c :: rest).take name.length = name)
              ∧ wordOpt (c :: rest)[name.length]? = false) := by
            rintro ⟨htake, hright⟩
            refine no_match_of_run_ne hname hword (c :: rest.takeWhile isWordChar)
              (rest.dropWhile isWordChar) hrunword htail0 hrn ?_
            constructor
            · rw [← hview]
              exact htake
            · rw [← hview]
              exact hright
          have hstep : scanSimple name body (fS + 1) false (c :: rest)
              = c :: scanSimple name body fS (isWordChar c) rest := by
            simp only [scanSimple]
            split
            · rename_i hcontra
              exact absurd ⟨hcontra.2.1, hcontra.2.2⟩ hcond3
            · rfl
          rw [hstep, hw]
          conv_lhs => rw [← hsplit]
          rw [scanSimple_word_run name body (rest.takeWhile isWordChar)
            (rest.dropWhile isWordChar) fS
            (fun x hx => List.mem_takeWhile_imp hx) (by omega)]
          rw [htails, htok]
          simp [joinRepl, if_neg hrn]
      · -- non-word head: a one-character token, never equal to the name
        have hwF : isWordChar c = false := by simpa using hw
        rw [scanSimple_nonword_head body hname hword c hwF false rest fS]
        have htok : tokenize (fT + 1) (c :: rest) = [c] :: tokenize fT rest := by
          simp [tokenize, hwF]
        rw [htok]
        have hcn : ¬ ([c] = name) := by
          intro heq
          have := hword c (by rw [← heq]; exact List.mem_singleton_self c)
          rw [this] at hwF
          cases hwF
        simp only [joinRepl, List.map_cons, List.flatten_cons, if_neg hcn]
        rw [ih rest fS fT (by omega) (by omega) (by omega)]
        simp [joinRepl]

/-- The regex-based single-entry replacement of the code agrees with the
token-level specification, for a non-empty name made of identifier (word)
characters and a body containing no dollar character. -/
theorem replaceWordBounded_eq_standaloneTokenReplace (name body s : String)
    (hname : name.data ≠ []) (hword : ∀ c ∈ name.data, isWordChar c = true)
    (hbody : ∀ c ∈ body.data, ¬ c = dollarChar) :
    replaceWordBounded name body s = standaloneTokenReplace name body s := by
  unfold replaceWordBounded standaloneTokenReplace
  congr 1
  rw [scanReplace_eq_scanSimple body.data s.data hname hword hbody
    s.data.length 0 s.data (List.drop_zero s.data).symm]
  have h0 : (if (0 : Nat) = 0 then (none : Option Char) else s.data[0 - 1]?) = none := rfl
  rw [h0]
  exact scanSimple_eq_tokens body.data hname hword s.data.length s.data
    s.data.length s.data.length (le_refl _) (le_refl _) (le_refl _)

theorem foldl_replace_eq_tokens (L : List (String × String)) (acc : String)
    (h : ∀ p ∈ L, p.1.data ≠ [] ∧ (∀ c ∈ p.1.data, isWordChar c = true)
        ∧ (∀ c ∈ p.2.data, ¬ c = dollarChar)) :
    L.foldl (fun r p => replaceWordBounded p.1 p.2 r) acc
      = L.foldl (fun r p => standaloneTokenReplace p.1 p.2 r) acc := by
  induction L generalizing acc with
  | nil => rfl
  | cons p L ih =>
    have hp := h p (List.mem_cons_self p L)
    simp only [List.foldl_cons]
    rw [replaceWordBounded_eq_standaloneTokenReplace p.1 p.2 acc hp.1 hp.2.1 hp.2.2]
    exact ih _ (fun q hq => h q (List.mem_cons_of_mem p hq))

/-- C8 (counterexample): the body of an entry is not always inserted
verbatim: a dollar sign in the body is a replacement-pattern escape of
`String.prototype.replace`, so the body `"$$"` inserts the single
character `"$"` instead of itself. -/
theorem C8_dollar_counterexample :
    replaceNamedExpressions [("foo", "$$")] ("foo") = ("$")
    ∧ ("$") ≠ ("$$") := by decide

/-- C8 (amended): for every library entry whose name is a non-empty
identifier token (word characters, the shape the library invariant
guarantees) and whose body contains no dollar character, the per-entry
pass replaces exactly the occurrences of the name that appear as
standalone tokens (maximal word-character runs bounded by non-identifier
characters or the string edges) with the body, and never touches the name
embedded in a longer identifier: it coincides with the token-level
replacement `standaloneTokenReplace`, both entry-wise and across the fold
over the library; in particular `expand("foo bar", {foo: "baz"}) =
"baz bar"` and `expand("foobar", {foo: "baz"}) = "foobar"`. -/
theorem C8_standalone_token_amended :
    (∀ name body s : String, name.data ≠ [] → (∀ c ∈ name.data, isWordChar c = true) →
      (∀ c ∈ body.data, ¬ c = dollarChar) →
      replaceWordBounded name body s = standaloneTokenReplace name body s)
    ∧ (∀ (lib : List (String × String)) (s : String),
        (∀ p ∈ jsEntries lib, p.1.data ≠ [] ∧ (∀ c ∈ p.1.data, isWordChar c = true)
          ∧ (∀ c ∈ p.2.data, ¬ c = dollarChar)) →
        replaceNamedExpressions lib s
          = (jsEntries lib).foldl (fun r p => standaloneTokenReplace p.1 p.2 r) s)
    ∧ replaceNamedExpressions [("foo", "baz")] ("foo bar") = ("baz bar")
    ∧ replaceNamedExpressions [("foo", "baz")] ("foobar") = ("foobar") := by
  refine ⟨replaceWordBounded_eq_standaloneTokenReplace, ?_, by decide, by decide⟩
  intro lib s h
  unfold replaceNamedExpressions
  exact foldl_replace_eq_tokens (jsEntries lib) s h

/-- C8 (witness): the entry `foo : baz` on a text with a standalone, a
bracketed and an embedded occurrence agrees with the token-level
specification. -/
theorem C8_witness :
    replaceWordBounded ("foo") ("baz") ("foo bar(foo)foobar foo")
      = standaloneTokenReplace ("foo") ("baz") ("foo bar(foo)foobar foo") :=
  C8_standalone_token_amended.1 ("foo") ("baz") ("foo bar(foo)foobar foo")
    (by decide) (by decide) (by decide)

end App
